import Mathlib

/-!
A verification development for the GeoBases repository
(src/GeoBases/GeoBaseModule.py, class GeoBase).

The Python class is shallowly embedded: the record store `_things`, the two
fuzzy caches, and the `fields` list become a Lean structure `GB`; Python
dicts become association lists with replace-or-append insertion; fallible
methods return `Except GeoError`.  The collaborator modules that are not
part of the inspected source (GeoUtils.haversine, LevenshteinUtils.mod_leven
and LevenshteinUtils.clean, and the builtin float parser) are taken as
explicit function parameters, so every theorem below holds for all of their
possible implementations.  Floating point numbers are modelled by ℚ, and a
possibly infinite search radius by the two-constructor type `Radius`.
-/

namespace GeoBases

/-! ### Python dict as an association list -/

/-- Lookup in a Python-dict model: first binding of the key, if any. -/
def dlookup {α β : Type} [DecidableEq α] : List (α × β) → α → Option β
  | [], _ => none
  | p :: l, k => if p.1 = k then some p.2 else dlookup l k

/-- Python dict assignment `d[k] = v`: replace the binding in place,
or append a fresh binding at the end (insertion order preserved). -/
def dinsert {α β : Type} [DecidableEq α] : List (α × β) → α → β → List (α × β)
  | [], k, v => [(k, v)]
  | p :: l, k, v => if p.1 = k then (k, v) :: l else p :: dinsert l k v

/-- Python `del d[k]`: remove the binding of `k` (first occurrence). -/
def dremove {α β : Type} [DecidableEq α] : List (α × β) → α → List (α × β)
  | [], _ => []
  | p :: l, k => if p.1 = k then l else p :: dremove l k

/-! ### Data model -/

/-- A record (`_things[key]` in the source): field name to string value. -/
abbrev Rec := List (String × String)

/-- The record store `_things`: key to record. -/
abbrev Store := List (String × Rec)

/-- A geocode (latitude, longitude), floats modelled by ℚ. -/
abbrev Point := ℚ × ℚ

/-- Key of the fuzzy caches, built by `_buildCacheKey`:
(cleaned joined value, field, approximate, min_match). -/
abbrev CacheKey := String × String × Option ℕ × ℚ

/-- Result shape of `fuzzyGet` and content of both fuzzy caches:
a list of (similarity ratio, key) pairs. -/
abbrev FuzzyRes := List (ℚ × String)

/-- The exceptions raised by the embedded methods: `KeyError` for a missing
thing, `KeyError` for a missing field, and the `ValueError`/`IndexError`
a malformed row causes inside `_loadFile`'s keyer. -/
inductive GeoError where
  | thingNotFound (key : String)
  | fieldNotFound (field key : String)
  | badRow (line : ℕ)
deriving DecidableEq

/-- Result of `GeoBase.get`: the whole record (no field asked)
or a single field value. -/
inductive GetRes where
  | whole (r : Rec)
  | val (v : String)
deriving DecidableEq

/-- The mutable state of a `GeoBase` instance: `_things`, `fields`,
`_cache_fuzzy` and `_bias_cache_fuzzy`.  (The grid `_ggrid` belongs to the
separate GeoGridModule, which is not part of the inspected source; all
spatial queries below are embedded in their exhaustive `grid=False` form.) -/
structure GB where
  things : Store
  fields : List String
  cache_fuzzy : List (CacheKey × FuzzyRes)
  bias_cache_fuzzy : List (CacheKey × FuzzyRes)
deriving DecidableEq

/-- `iter(self)` / `keys()`: the keys of the store in insertion order. -/
def pyKeys (g : GB) : List String := g.things.map Prod.fst

/-! ### get -/

/-- `GeoBase.get(key, field=None, default=None)`.  If the key is absent:
return the default if one is supplied (`default is not None`), else raise
`KeyError('Thing not found: ...')`.  If the key is present and no field is
asked: return the whole record.  Otherwise return the field value, raising
`KeyError('Field ... not in ...')` when the record lacks the field. -/
def get (g : GB) (key : String) (field : Option String) (default : Option GetRes) :
    Except GeoError GetRes :=
  match dlookup g.things key with
  | none =>
    match default with
    | some d => .ok d
    | none => .error (.thingNotFound key)
  | some r =>
    match field with
    | none => .ok (.whole r)
    | some f =>
      match dlookup r f with
      | some v => .ok (.val v)
      | none => .error (.fieldNotFound f key)

/-- `self.get(key, field)` specialised to a field access with no default,
projected to the string value (a field access never returns a whole
record); the lemma `getField_eq_get` below ties it to `get`. -/
def getField (g : GB) (key field : String) : Except GeoError String :=
  match dlookup g.things key with
  | none => .error (.thingNotFound key)
  | some r =>
    match dlookup r field with
    | some v => .ok v
    | none => .error (.fieldNotFound field key)

/-! ### Geocoding and distances -/

/-- `GeoBase.getLocation(key)`: `float(self.get(key,'lat'))` then
`float(self.get(key,'lng'))`; a `ValueError` of either `float` call is
caught and yields `None` (no geocode); a `KeyError` of `get` propagates.
`pfloat` is the Python `float` parser (not part of the inspected source),
returning `none` where `float` would raise `ValueError`. -/
def getLocation (pfloat : String → Option ℚ) (g : GB) (key : String) :
    Except GeoError (Option Point) :=
  match getField g key "lat" with
  | .error e => .error e
  | .ok lat =>
    match pfloat lat with
    | none => .ok none
    | some la =>
      match getField g key "lng" with
      | .error e => .error e
      | .ok lng =>
        match pfloat lng with
        | none => .ok none
        | some ln => .ok (some (la, ln))

/-- Search radius: a float that may be `+infinity`. -/
inductive Radius where
  | fin (r : ℚ)
  | inf
deriving DecidableEq

/-- The Python comparison `dist <= radius` where the radius may be the
float `+infinity` (always true there). -/
def leRadius (d : ℚ) : Radius → Bool
  | .fin r => decide (d ≤ r)
  | .inf => true

/-- Recursion of `_buildDistances` over the candidate keys: skip keys
without a usable geocode, pair the others with their haversine distance
from the reference point.  `hav` is GeoUtils.haversine (not part of the
inspected source). -/
def buildDistancesFrom (pfloat : String → Option ℚ) (hav : Point → Point → ℚ)
    (g : GB) (ref : Point) : List String → Except GeoError FuzzyRes
  | [] => .ok []
  | k :: ks =>
    match getLocation pfloat g k with
    | .error e => .error e
    | .ok none => buildDistancesFrom pfloat hav g ref ks
    | .ok (some ll) =>
      match buildDistancesFrom pfloat hav g ref ks with
      | .error e => .error e
      | .ok rest => .ok ((hav ref ll, k) :: rest)

/-- `GeoBase._buildDistances(lat_lng_ref, keys)`: empty when the reference
point is `None` (the `raise StopIteration` of the generator), else the
(distance, key) pairs of the geocoded candidates. -/
def buildDistances (pfloat : String → Option ℚ) (hav : Point → Point → ℚ)
    (g : GB) (ref : Option Point) (keys : List String) : Except GeoError FuzzyRes :=
  match ref with
  | none => .ok []
  | some r => buildDistancesFrom pfloat hav g r keys

/-- `GeoBase.findNearPoint(lat_lng, radius, from_keys, grid=False)`:
keep the candidates whose distance is at most the radius. -/
def findNearPoint (pfloat : String → Option ℚ) (hav : Point → Point → ℚ)
    (g : GB) (ref : Option Point) (radius : Radius) (keys : List String) :
    Except GeoError FuzzyRes :=
  (buildDistances pfloat hav g ref keys).map (List.filter (fun dk => leRadius dk.1 radius))

/-- `GeoBase.findNearKey(key, radius, from_keys, grid=False)`: look the key
up with `getLocation`, then delegate to `findNearPoint`. -/
def findNearKey (pfloat : String → Option ℚ) (hav : Point → Point → ℚ)
    (g : GB) (key : String) (radius : Radius) (keys : List String) :
    Except GeoError FuzzyRes :=
  match getLocation pfloat g key with
  | .error e => .error e
  | .ok loc => findNearPoint pfloat hav g loc radius keys

/-! ### Python sorting on (score, key) tuples -/

/-- Python tuple order on (float, str) pairs: first component first,
string tie-break. -/
def pairLe (a b : ℚ × String) : Prop :=
  a.1 < b.1 ∨ (a.1 = b.1 ∧ a.2 ≤ b.2)

instance : DecidableRel pairLe :=
  fun a b => inferInstanceAs (Decidable (a.1 < b.1 ∨ (a.1 = b.1 ∧ a.2 ≤ b.2)))

/-- The reversed tuple order, used by `sorted(..., reverse=True)`. -/
def pairRevLe (a b : ℚ × String) : Prop := pairLe b a

instance : DecidableRel pairRevLe :=
  fun a b => inferInstanceAs (Decidable (pairLe b a))

/-- `sorted(l)`: Python sort is a stable sort by the tuple order, which a
stable insertion sort computes as well. -/
def pySortAsc (l : FuzzyRes) : FuzzyRes := List.insertionSort pairLe l

/-- `sorted(l, reverse=True)`: stable sort by the reversed tuple order. -/
def pySortDesc (l : FuzzyRes) : FuzzyRes := List.insertionSort pairRevLe l

/-- `heapq.nsmallest(n, l)`, equivalent to `sorted(l)[:n]`. -/
def nsmallest (n : ℕ) (l : FuzzyRes) : FuzzyRes := (pySortAsc l).take n

/-- `heapq.nlargest(n, l)`, equivalent to `sorted(l, reverse=True)[:n]`. -/
def nlargest (n : ℕ) (l : FuzzyRes) : FuzzyRes := (pySortDesc l).take n

/-- `GeoBase.findClosestFromPoint(lat_lng, N, from_keys, grid=False)`:
the `N` smallest (distance, key) pairs. -/
def findClosestFromPoint (pfloat : String → Option ℚ) (hav : Point → Point → ℚ)
    (g : GB) (ref : Option Point) (N : ℕ) (keys : List String) :
    Except GeoError FuzzyRes :=
  (buildDistances pfloat hav g ref keys).map (nsmallest N)

/-! ### Fuzzy searching -/

/-- `GeoBase._buildRatios(fuzzy_value, field, keys, min_match)`: score each
candidate field value with `mod_leven` (LevenshteinUtils, not part of the
inspected source) and keep the pairs at or above the threshold. -/
def buildRatios (leven : String → String → ℚ) (g : GB) (fv field : String)
    (mm : ℚ) : List String → Except GeoError FuzzyRes
  | [] => .ok []
  | k :: ks =>
    match getField g k field with
    | .error e => .error e
    | .ok v =>
      match buildRatios leven g fv field mm ks with
      | .error e => .error e
      | .ok rest => .ok (if mm ≤ leven fv v then (leven fv v, k) :: rest else rest)

/-- `GeoBase.fuzzyGet(fuzzy_value, field, approximate, min_match, from_keys)`:
all passing ratios sorted descending when `approximate is None`, else
`heapq.nlargest(approximate, ...)`. -/
def fuzzyGet (leven : String → String → ℚ) (g : GB) (fv field : String)
    (approximate : Option ℕ) (mm : ℚ) (keys : List String) :
    Except GeoError FuzzyRes :=
  match buildRatios leven g fv field mm keys with
  | .error e => .error e
  | .ok l =>
    .ok (match approximate with
      | none => pySortDesc l
      | some n => nlargest n l)

/-! ### Cache and bias layer -/

/-- `GeoBase._buildCacheKey`: `('+'.join(clean(fuzzy_value)), field,
approximate, min_match)`.  `clean` is LevenshteinUtils.clean (not part of
the inspected source). -/
def buildCacheKey (clean : String → List String) (fv field : String)
    (approximate : Option ℕ) (mm : ℚ) : CacheKey :=
  (String.intercalate "+" (clean fv), field, approximate, mm)

/-- `GeoBase._fuzzyGetBiased(entry)`: return the forced result when the
entry is in the bias cache, else run `fuzzyGet(*entry)` (on the cleaned
value, over all keys). -/
def fuzzyGetBiased (leven : String → String → ℚ) (g : GB) (entry : CacheKey) :
    Except GeoError FuzzyRes :=
  match dlookup g.bias_cache_fuzzy entry with
  | some r => .ok r
  | none => fuzzyGet leven g entry.1 entry.2.1 entry.2.2.1 entry.2.2.2 (pyKeys g)

/-- `GeoBase.fuzzyGetCached(fuzzy_value, field, approximate, min_match)`:
on a regular-cache hit return the cached result unchanged; on a miss run
`_fuzzyGetBiased` and store its result in the regular cache.  Returns the
result together with the new instance state.  (The `verbose`/`show_bad`
debug printing of the source has no effect on state or result and is not
modelled.) -/
def fuzzyGetCached (clean : String → List String) (leven : String → String → ℚ)
    (g : GB) (fv field : String) (approximate : Option ℕ) (mm : ℚ) :
    Except GeoError (FuzzyRes × GB) :=
  let entry := buildCacheKey clean fv field approximate mm
  match dlookup g.cache_fuzzy entry with
  | some r => .ok (r, g)
  | none =>
    match fuzzyGetBiased leven g entry with
    | .error e => .error e
    | .ok m => .ok (m, { g with cache_fuzzy := dinsert g.cache_fuzzy entry m })

/-- `GeoBase.biasFuzzyCache(fuzzy_value, field, approximate, min_match,
biased_result)`: insert the forced result into the bias cache. -/
def biasFuzzyCache (clean : String → List String) (g : GB) (fv field : String)
    (approximate : Option ℕ) (mm : ℚ) (biased_result : FuzzyRes) : GB :=
  { g with bias_cache_fuzzy :=
      dinsert g.bias_cache_fuzzy (buildCacheKey clean fv field approximate mm) biased_result }

/-- `GeoBase.clearCache()`: reset the regular fuzzy cache. -/
def clearCache (g : GB) : GB := { g with cache_fuzzy := [] }

/-- `GeoBase.clearBiasCache()`: reset the bias cache. -/
def clearBiasCache (g : GB) : GB := { g with bias_cache_fuzzy := [] }

/-! ### Mutation -/

/-- `GeoBase.set(key, field, value)`: create an empty record if the key is
absent, assign the field, and append the field to `fields` if new. -/
def set (g : GB) (key field value : String) : GB :=
  let rec0 := (dlookup g.things key).getD []
  { g with
    things := dinsert g.things key (dinsert rec0 field value)
    fields := if field ∈ g.fields then g.fields else g.fields ++ [field] }

/-- `GeoBase.setWithDict(key, dictionary)`: iterate `set` over the items. -/
def setWithDict (g : GB) (key : String) (d : List (String × String)) : GB :=
  d.foldl (fun g2 p => set g2 key p.1 p.2) g

/-- `GeoBase.delete(key)`: `del self._things[key]`, a `KeyError` when the
key is absent. -/
def delete (g : GB) (key : String) : Except GeoError GB :=
  match dlookup g.things key with
  | some _ => .ok { g with things := dremove g.things key }
  | none => .error (.thingNotFound key)

/-! ### File loading -/

/-- The `key_col` configuration: a single column name, or a list of
column names whose values are concatenated. -/
inductive KeyCol where
  | single (col : String)
  | multi (cols : List String)
deriving DecidableEq

/-- The loading configuration `(_headers, _key_col, _delimiter)`; a `none`
header marks a not-loaded column.  The delimiter is modelled as a single
character (all configured delimiters are). -/
structure LoadConf where
  headers : List (Option String)
  key_col : KeyCol
  delimiter : Char
deriving DecidableEq

/-- The characters stripped by `row.strip(' \n\r')`. -/
def stripChars : List Char := [' ', '\n', '\r']

/-- `row.strip(' \n\r')` on the character list of the line. -/
def pyStrip (s : String) : List Char :=
  ((s.data.dropWhile (fun c => stripChars.contains c)).reverse.dropWhile
    (fun c => stripChars.contains c)).reverse

/-- `str.split(sep)` for a one-character separator: split at every
occurrence, keeping empty fields. -/
def splitChar (lim : Char) : List Char → List (List Char)
  | [] => [[]]
  | c :: cs =>
    match splitChar lim cs with
    | [] => [[]]
    | grp :: gs => if c = lim then [] :: grp :: gs else (c :: grp) :: gs

/-- `row.strip(' \n\r').split(lim)` of `_loadFile`. -/
def rowOf (cfg : LoadConf) (raw : String) : List String :=
  (splitChar cfg.delimiter (pyStrip raw)).map (fun cs => String.mk cs)

/-- `not row or row.startswith('#')`: the comment/empty-line skip. -/
def skipLine (raw : String) : Bool :=
  match raw.data with
  | [] => true
  | c :: _ => c = '#'

/-- `headers.index(col)` for a present column, `none` where Python list
index raises `ValueError`. -/
def colIndex (headers : List (Option String)) (col : String) : Option ℕ :=
  headers.findIdx? (fun h => h = some col)

/-- The list variant of the keyer:
`''.join(row[headers.index(k)] for k in key_col)`. -/
def keyerMulti (headers : List (Option String)) (row : List String) :
    List String → Option String
  | [] => some ""
  | c :: cs =>
    match colIndex headers c with
    | none => none
    | some i =>
      match row.get? i with
      | none => none
      | some v => (keyerMulti headers row cs).map (fun rest => v ++ rest)

/-- The keyer of `_loadFile`: extract the record key from a split row,
`none` where Python would raise (`ValueError`/`IndexError`). -/
def keyer (cfg : LoadConf) (row : List String) : Option String :=
  match cfg.key_col with
  | .single c => (colIndex cfg.headers c).bind (fun i => row.get? i)
  | .multi cs => keyerMulti cfg.headers row cs

/-- The record built for one row: `{'__id__': key, '__ln__': str(line_nb)}`
then one assignment per non-`None` header zipped with the row. -/
def mkRecord (headers : List (Option String)) (key : String) (ln : ℕ)
    (row : List String) : Rec :=
  (headers.zip row).foldl
    (fun r hv => match hv.1 with | none => r | some h => dinsert r h hv.2)
    (dinsert (dinsert [] "__id__" key) "__ln__" (Nat.repr ln))

/-- The loop of `_loadFile` over the enumerated lines, carrying the store
and the duplicate warnings printed so far (a warning records the key and
the overwritten record; it is emitted only when `verbose`). -/
def loadLines (cfg : LoadConf) (verbose : Bool) :
    List (ℕ × String) → Store → List (String × Rec) →
    Except GeoError (Store × List (String × Rec))
  | [], st, ws => .ok (st, ws)
  | (ln, raw) :: rest, st, ws =>
    if skipLine raw then loadLines cfg verbose rest st ws
    else
      let row := rowOf cfg raw
      match keyer cfg row with
      | none => .error (.badRow ln)
      | some key =>
        let ws2 :=
          match dlookup st key with
          | some old => if verbose then ws ++ [(key, old)] else ws
          | none => ws
        loadLines cfg verbose rest (dinsert st key (mkRecord cfg.headers key ln row)) ws2

/-- `GeoBase._loadFile()` on the lines of the source file (lines
enumerated from 1, as `enumerate(f, start=1)` does). -/
def loadFile (cfg : LoadConf) (verbose : Bool) (lines : List String) :
    Except GeoError (Store × List (String × Rec)) :=
  loadLines cfg verbose (List.enumFrom 1 lines) [] []

/-- `self.fields` after loading:
`['__id__', '__ln__'] + [h for h in headers if h is not None]`. -/
def loadedFields (headers : List (Option String)) : List String :=
  ["__id__", "__ln__"] ++ headers.filterMap id

/-! ### Reference functions for the stated properties -/

/-- The record a given enumerated line contributes for key `k`:
`none` when the line is skipped, fails to key, or keys differently. -/
def lineRecord (cfg : LoadConf) (k : String) (p : ℕ × String) : Option Rec :=
  if skipLine p.2 then none
  else
    match keyer cfg (rowOf cfg p.2) with
    | some key => if key = k then some (mkRecord cfg.headers key p.1 (rowOf cfg p.2)) else none
    | none => none

/-- Reference selector for the last-write-wins property: the record of the
last line of the file that produces key `k`. -/
def specLastRecord (cfg : LoadConf) (lines : List String) (k : String) : Option Rec :=
  ((List.enumFrom 1 lines).filterMap (lineRecord cfg k)).getLast?

/-- The keys produced by the kept (non-skipped, well-keyed) lines, in file
order. -/
def keptKeys (cfg : LoadConf) (ents : List (ℕ × String)) : List String :=
  ents.filterMap (fun p => if skipLine p.2 then none else keyer cfg (rowOf cfg p.2))

/-- Every non-skipped line yields a key (no malformed row). -/
def allRowsKeyed (cfg : LoadConf) (ents : List (ℕ × String)) : Bool :=
  ents.all (fun p => skipLine p.2 || (keyer cfg (rowOf cfg p.2)).isSome)

/-- The identity-marker invariant: every record of the store holds
`'__id__'` equal to its own key. -/
def hasIdInv (st : Store) : Bool :=
  st.all (fun p => dlookup p.2 "__id__" == some p.1)

/-! ### Concrete instantiations used by witnesses and counterexamples -/

/-- A concrete text normalizer for witness evaluation. -/
def clean0 : String → List String := fun s => [s]

/-- A concrete similarity scorer for witness evaluation. -/
def leven0 : String → String → ℚ := fun _ _ => 1

/-- A concrete distance function for witness evaluation: the latitude of
the second point. -/
def hav0 : Point → Point → ℚ := fun _ q => q.1

/-- A concrete float parser for witness evaluation. -/
def pfloat0 : String → Option ℚ :=
  fun s => if s = "1" then some 1 else if s = "2" then some 2 else none

/-- A one-record base used by several witnesses. -/
def gEx1 : GB :=
  { things := [("frnic", [("name", "Nice")])]
    fields := ["__id__", "__ln__", "name"]
    cache_fuzzy := []
    bias_cache_fuzzy := [] }

deriving instance DecidableEq for Except

/-! ## Lemmas about the dict model -/

theorem dlookup_dinsert {α β : Type} [DecidableEq α] (l : List (α × β)) (k k2 : α) (v : β) :
    dlookup (dinsert l k v) k2 = if k = k2 then some v else dlookup l k2 := by
  induction l with
  | nil => simp [dinsert, dlookup]
  | cons p t ih =>
    by_cases h : p.1 = k
    · simp only [dinsert, if_pos h, dlookup]
      by_cases h2 : k = k2 <;> simp [h2, h, dlookup]
    · simp only [dinsert, if_neg h, dlookup]
      by_cases h2 : p.1 = k2
      · have : ¬ k = k2 := fun he => h (he ▸ h2)
        simp [h2, this]
      · simp [h2, ih]

theorem dlookup_dinsert_self {α β : Type} [DecidableEq α] (l : List (α × β)) (k : α) (v : β) :
    dlookup (dinsert l k v) k = some v := by
  simp [dlookup_dinsert]

theorem dlookup_dinsert_ne {α β : Type} [DecidableEq α] (l : List (α × β)) (k k2 : α) (v : β)
    (h : ¬ k = k2) : dlookup (dinsert l k v) k2 = dlookup l k2 := by
  simp [dlookup_dinsert, h]

theorem mem_dinsert {α β : Type} [DecidableEq α] {p : α × β} {l : List (α × β)} {k : α} {v : β}
    (h : p ∈ dinsert l k v) : p = (k, v) ∨ p ∈ l := by
  induction l with
  | nil =>
    simp [dinsert] at h
    exact Or.inl h
  | cons q t ih =>
    by_cases hq : q.1 = k
    · rw [dinsert, if_pos hq] at h
      rcases List.mem_cons.mp h with h1 | h1
      · exact Or.inl h1
      · exact Or.inr (List.mem_cons_of_mem q h1)
    · rw [dinsert, if_neg hq] at h
      rcases List.mem_cons.mp h with h1 | h1
      · exact Or.inr (h1 ▸ List.mem_cons_self q t)
      · rcases ih h1 with h2 | h2
        · exact Or.inl h2
        · exact Or.inr (List.mem_cons_of_mem q h2)

theorem mem_dremove {α β : Type} [DecidableEq α] {p : α × β} {l : List (α × β)} {k : α}
    (h : p ∈ dremove l k) : p ∈ l := by
  induction l with
  | nil => simp [dremove] at h
  | cons q t ih =>
    by_cases hq : q.1 = k
    · rw [dremove, if_pos hq] at h
      exact List.mem_cons_of_mem q h
    · rw [dremove, if_neg hq] at h
      rcases List.mem_cons.mp h with h1 | h1
      · exact h1 ▸ List.mem_cons_self q t
      · exact List.mem_cons_of_mem q (ih h1)

theorem dlookup_mem {α β : Type} [DecidableEq α] {l : List (α × β)} {k : α} {v : β}
    (h : dlookup l k = some v) : (k, v) ∈ l := by
  induction l with
  | nil => simp [dlookup] at h
  | cons p t ih =>
    by_cases hp : p.1 = k
    · rw [dlookup, if_pos hp] at h
      have : p = (k, v) := by
        cases p
        simp only [Option.some.injEq] at h
        simp_all
      exact this ▸ List.mem_cons_self p t
    · rw [dlookup, if_neg hp] at h
      exact List.mem_cons_of_mem p (ih h)

/-- A field access through `get` (no default) is `getField`. -/
theorem getField_eq_get (g : GB) (key f : String) :
    get g key (some f) none = (getField g key f).map GetRes.val := by
  cases hr : dlookup g.things key with
  | none => simp [get, getField, hr, Except.map]
  | some r =>
    cases hf : dlookup r f with
    | none => simp [get, getField, hr, hf, Except.map]
    | some v => simp [get, getField, hr, hf, Except.map]

/-! ## Claims -/

/-- Claim C5: `get` is asymmetric in its failure handling.  For a key
absent from the store, `get` returns the supplied default when one is
given and raises `KeyError` (thing not found) otherwise; for a key present
and a field absent from that record, `get` raises `KeyError` (field not
found) even when a default is supplied. -/
theorem c5_get_failure_asymmetry (g : GB) (key : String) (field : Option String)
    (d : GetRes) (r : Rec) (f : String) :
    (dlookup g.things key = none →
      get g key field (some d) = .ok d ∧
      get g key field none = .error (.thingNotFound key)) ∧
    (dlookup g.things key = some r → dlookup r f = none →
      ∀ default : Option GetRes,
        get g key (some f) default = .error (.fieldNotFound f key)) := by
  constructor
  · intro h
    exact ⟨by simp [get, h], by simp [get, h]⟩
  · intro h hf default
    simp [get, h, hf]

theorem c5_get_failure_asymmetry_witness :
    get gEx1 "frmoron" (some "name") (some (GetRes.val "There")) = .ok (GetRes.val "There") ∧
    get gEx1 "frmoron" (some "name") none = .error (.thingNotFound "frmoron") ∧
    get gEx1 "frnic" (some "not_a_field") (some (GetRes.val "There")) =
      .error (.fieldNotFound "not_a_field" "frnic") := by
  have h := c5_get_failure_asymmetry gEx1 "frmoron" (some "name") (GetRes.val "There")
    [("name", "Nice")] "not_a_field"
  have h2 := c5_get_failure_asymmetry gEx1 "frnic" (some "not_a_field") (GetRes.val "There")
    [("name", "Nice")] "not_a_field"
  exact ⟨(h.1 (by decide)).1, (h.1 (by decide)).2, h2.2 (by decide) (by decide) _⟩

/-- Claim C10: `None` is the internal no-default sentinel of `get`: calling
`get` on an absent key with the default argument explicitly `None`
(modelled by `none`) raises the not-found error instead of returning the
default. -/
theorem c10_none_default_sentinel (g : GB) (key : String) (field : Option String)
    (h : dlookup g.things key = none) :
    get g key field none = .error (.thingNotFound key) := by
  simp [get, h]

theorem c10_none_default_sentinel_witness :
    get gEx1 "frmoron" (some "name") none = .error (.thingNotFound "frmoron") :=
  c10_none_default_sentinel gEx1 "frmoron" (some "name") (by decide)

/-- Claim C4: `clearCache` empties only the regular fuzzy cache and leaves
the bias map (and the rest of the state) unchanged; `clearBiasCache`
empties only the bias map; and a bias entry installed by `biasFuzzyCache`
still takes effect on the next `fuzzyGetCached` lookup with a matching
canonical key after `clearCache` has been called: that lookup returns the
forced result (for every scoring function). -/
theorem c4_clear_independence_and_bias_survival
    (clean : String → List String) (leven : String → String → ℚ) (g : GB)
    (fv field : String) (approximate : Option ℕ) (mm : ℚ) (r : FuzzyRes) :
    clearCache g = { g with cache_fuzzy := [] } ∧
    clearBiasCache g = { g with bias_cache_fuzzy := [] } ∧
    fuzzyGetCached clean leven (clearCache (biasFuzzyCache clean g fv field approximate mm r))
        fv field approximate mm =
      .ok (r, { g with
        cache_fuzzy := [(buildCacheKey clean fv field approximate mm, r)],
        bias_cache_fuzzy :=
          dinsert g.bias_cache_fuzzy (buildCacheKey clean fv field approximate mm) r }) := by
  refine ⟨rfl, rfl, ?_⟩
  simp [fuzzyGetCached, fuzzyGetBiased, clearCache, biasFuzzyCache, dlookup,
    dlookup_dinsert_self, dinsert]

/-- Claim C1 counterexample: a state whose regular cache and bias cache
both hold an entry for the same canonical key.  `fuzzyGetCached` returns
the regular-cache result, not the forced bias result: the bias does not
take priority over the regular cache. -/
def gC1 : GB :=
  { things := []
    fields := []
    cache_fuzzy := [(("q", "name", none, 0), [(1, "CACHED")])]
    bias_cache_fuzzy := [(("q", "name", none, 0), [(1, "BIASED")])] }

theorem c1_bias_priority_counterexample :
    dlookup gC1.bias_cache_fuzzy (buildCacheKey clean0 "q" "name" none 0) =
      some [(1, "BIASED")] ∧
    fuzzyGetCached clean0 leven0 gC1 "q" "name" none 0 = .ok ([(1, "CACHED")], gC1) ∧
    ([((1 : ℚ), "CACHED")] : FuzzyRes) ≠ [(1, "BIASED")] := by
  refine ⟨by decide, ?_, by decide⟩
  decide

/-- Claim C1 as amended: when the canonical key misses the regular cache,
a bias entry for it forces the result of `fuzzyGetCached` without
invoking the scoring computation (the result is the same for every scoring
function), and the forced result is stored in the regular cache; a
regular-cache hit, however, takes priority over the bias. -/
theorem c1_amended_bias_hit_on_cache_miss
    (clean : String → List String) (g : GB) (fv field : String)
    (approximate : Option ℕ) (mm : ℚ) (r : FuzzyRes)
    (hmiss : dlookup g.cache_fuzzy (buildCacheKey clean fv field approximate mm) = none)
    (hbias : dlookup g.bias_cache_fuzzy (buildCacheKey clean fv field approximate mm) = some r) :
    ∀ leven : String → String → ℚ,
      fuzzyGetCached clean leven g fv field approximate mm =
        .ok (r, { g with cache_fuzzy := dinsert g.cache_fuzzy (buildCacheKey clean fv field approximate mm) r }) := by
  intro leven
  simp [fuzzyGetCached, fuzzyGetBiased, hmiss, hbias]

def gC1b : GB :=
  { things := []
    fields := []
    cache_fuzzy := []
    bias_cache_fuzzy := [(("q", "name", none, 0), [(1, "BIASED")])] }

theorem c1_amended_bias_hit_on_cache_miss_witness :
    fuzzyGetCached clean0 leven0 gC1b "q" "name" none 0 =
      .ok ([(1, "BIASED")],
        { gC1b with cache_fuzzy := dinsert gC1b.cache_fuzzy (buildCacheKey clean0 "q" "name" none 0) [(1, "BIASED")] }) :=
  c1_amended_bias_hit_on_cache_miss clean0 gC1b "q" "name" none 0 [(1, "BIASED")]
    (by decide) (by decide) leven0

/-- Claim C6: for a key-anchored radius query, a key present in the store
whose lat/lng do not parse as coordinates (no GeoPoint) yields an empty
result rather than an error, while a key absent from the store raises the
not-found error. -/
theorem c6_findNearKey_failure_modes
    (pfloat : String → Option ℚ) (hav : Point → Point → ℚ) (g : GB)
    (key : String) (radius : Radius) (keys : List String) :
    (∀ r : Rec, dlookup g.things key = some r →
      getLocation pfloat g key = .ok none →
      findNearKey pfloat hav g key radius keys = .ok []) ∧
    (dlookup g.things key = none →
      findNearKey pfloat hav g key radius keys = .error (.thingNotFound key)) := by
  constructor
  · intro r _ hloc
    simp [findNearKey, hloc, findNearPoint, buildDistances, Except.map]
  · intro habs
    have hloc : getLocation pfloat g key = .error (.thingNotFound key) := by
      simp [getLocation, getField, habs]
    simp [findNearKey, hloc]

/-- A base with one record whose geocode fields do not parse. -/
def gC6 : GB :=
  { things := [("X", [("lat", "bad"), ("lng", "1")])]
    fields := ["__id__", "__ln__", "lat", "lng"]
    cache_fuzzy := []
    bias_cache_fuzzy := [] }

theorem c6_findNearKey_failure_modes_witness :
    findNearKey pfloat0 hav0 gC6 "X" (Radius.fin 50) (pyKeys gC6) = .ok [] ∧
    findNearKey pfloat0 hav0 gC6 "Z" (Radius.fin 50) (pyKeys gC6) =
      .error (.thingNotFound "Z") := by
  have h1 := c6_findNearKey_failure_modes pfloat0 hav0 gC6 "X" (Radius.fin 50) (pyKeys gC6)
  have h2 := c6_findNearKey_failure_modes pfloat0 hav0 gC6 "Z" (Radius.fin 50) (pyKeys gC6)
  exact ⟨h1.1 [("lat", "bad"), ("lng", "1")] (by decide) (by decide), h2.2 (by decide)⟩

/-! ## The Python tuple order is a total preorder -/

instance : IsTrans (ℚ × String) pairLe where
  trans a b c hab hbc := by
    rcases hab with h | ⟨he, hs⟩
    · rcases hbc with h2 | ⟨he2, _⟩
      · exact Or.inl (h.trans h2)
      · exact Or.inl (he2 ▸ h)
    · rcases hbc with h2 | ⟨he2, hs2⟩
      · exact Or.inl (he ▸ h2)
      · exact Or.inr ⟨he.trans he2, hs.trans hs2⟩

instance : IsTotal (ℚ × String) pairLe where
  total a b := by
    rcases lt_trichotomy a.1 b.1 with h | h | h
    · exact Or.inl (Or.inl h)
    · rcases le_total a.2 b.2 with h2 | h2
      · exact Or.inl (Or.inr ⟨h, h2⟩)
      · exact Or.inr (Or.inr ⟨h.symm, h2⟩)
    · exact Or.inr (Or.inl h)

instance : IsTrans (ℚ × String) pairRevLe where
  trans a b c hab hbc := IsTrans.trans (r := pairLe) c b a hbc hab

instance : IsTotal (ℚ × String) pairRevLe where
  total a b := IsTotal.total (r := pairLe) b a

theorem pairLe_fst_le {a b : ℚ × String} (h : pairLe a b) : a.1 ≤ b.1 := by
  rcases h with h | ⟨he, _⟩
  · exact le_of_lt h
  · exact le_of_eq he

theorem mem_take_of_le {α : Type} :
    ∀ {l : List α} {m n : ℕ} {a : α}, m ≤ n → a ∈ l.take m → a ∈ l.take n := by
  intro l
  induction l with
  | nil =>
    intro m n a _ ha
    simp at ha
  | cons b t ih =>
    intro m n a h ha
    cases m with
    | zero => simp at ha
    | succ m0 =>
      cases n with
      | zero => omega
      | succ n0 =>
        rw [List.take_succ_cons] at ha ⊢
        rcases List.mem_cons.mp ha with h1 | h1
        · exact h1 ▸ List.mem_cons_self b _
        · exact List.mem_cons_of_mem b (ih (by omega) h1)

/-- Claim C9: raising the `approximate` limit of `fuzzyGet` from `K - 1` to
`K` never excludes a result: every (score, key) pair of the smaller top
list also appears in the larger one. -/
theorem c9_topk_monotone
    (leven : String → String → ℚ) (g : GB) (fv field : String) (mm : ℚ)
    (keys : List String) (K : ℕ) (hK : 2 ≤ K) (l₁ l₂ : FuzzyRes)
    (h₁ : fuzzyGet leven g fv field (some (K - 1)) mm keys = .ok l₁)
    (h₂ : fuzzyGet leven g fv field (some K) mm keys = .ok l₂) :
    ∀ p ∈ l₁, p ∈ l₂ := by
  cases hb : buildRatios leven g fv field mm keys with
  | error e =>
    rw [fuzzyGet, hb] at h₁
    cases h₁
  | ok l =>
    rw [fuzzyGet, hb] at h₁
    rw [fuzzyGet, hb] at h₂
    simp only [Except.ok.injEq] at h₁ h₂
    intro p hp
    rw [← h₂]
    rw [← h₁] at hp
    exact mem_take_of_le (by omega) hp

/-- A two-record base with a concrete scorer, for the fuzzy-search
witnesses and counterexamples. -/
def gC2 : GB :=
  { things := [("K1", [("name", "A")]), ("K2", [("name", "B")])]
    fields := ["__id__", "__ln__", "name"]
    cache_fuzzy := []
    bias_cache_fuzzy := [] }

/-- A concrete scorer giving distinct integer ratios. -/
def leven9 : String → String → ℚ := fun _ v => if v = "A" then 3 else 2

theorem c9_topk_monotone_witness :
    ((3 : ℚ), "K1") ∈ ([((3 : ℚ), "K1"), (2, "K2")] : FuzzyRes) :=
  c9_topk_monotone leven9 gC2 "q" "name" 0 (pyKeys gC2) 2 (by decide)
    [(3, "K1")] [(3, "K1"), (2, "K2")] (by decide) (by decide) ((3 : ℚ), "K1") (by decide)

/-- Claim C2 counterexample: with no result-count limit (`approximate is
None`), `fuzzyGet` does not return the single highest-scoring pair: it
returns the full descending-sorted list of every candidate at or above the
threshold (here two pairs). -/
theorem c2_single_pair_counterexample :
    fuzzyGet leven9 gC2 "q" "name" none 0 (pyKeys gC2) =
      .ok [((3 : ℚ), "K1"), (2, "K2")] ∧
    ([((3 : ℚ), "K1"), (2, "K2")] : FuzzyRes) ≠ [((3 : ℚ), "K1")] := by
  exact ⟨by decide, by decide⟩

/-- Claim C2 as amended: `fuzzyGet` with `approximate=None` returns the
list of all (score, key) pairs at or above the threshold, sorted
descending by the Python tuple order (score first, key tie-break), so its
first element is a highest-scoring pair; with a limit `K` it returns
exactly the first `K` elements of that sorted list (the top-K). -/
theorem c2_amended_sorted_list
    (leven : String → String → ℚ) (g : GB) (fv field : String) (mm : ℚ)
    (keys : List String) (l : FuzzyRes)
    (hl : buildRatios leven g fv field mm keys = .ok l) :
    ∃ res, fuzzyGet leven g fv field none mm keys = .ok res ∧
      res.Perm l ∧
      res.Sorted pairRevLe ∧
      (∀ K, fuzzyGet leven g fv field (some K) mm keys = .ok (res.take K)) ∧
      (∀ h2, res.head? = some h2 → ∀ x ∈ res, x.1 ≤ h2.1) := by
  refine ⟨pySortDesc l, ?_, ?_, ?_, ?_, ?_⟩
  · rw [fuzzyGet, hl]
  · exact List.perm_insertionSort pairRevLe l
  · exact List.sorted_insertionSort pairRevLe l
  · intro K
    rw [fuzzyGet, hl]
    rfl
  · intro h2 hh x hx
    have hsort : (pySortDesc l).Sorted pairRevLe := List.sorted_insertionSort pairRevLe l
    cases hres : pySortDesc l with
    | nil =>
      rw [hres] at hh
      cases hh
    | cons h0 t =>
      rw [hres] at hh hx hsort
      have hh0 : h0 = h2 := by simpa using hh
      subst hh0
      rcases List.mem_cons.mp hx with h1 | h1
      · exact le_of_eq (congrArg Prod.fst h1)
      · exact pairLe_fst_le ((List.sorted_cons.mp hsort).1 x h1)

theorem c2_amended_sorted_list_witness :
    buildRatios leven9 gC2 "q" "name" 0 (pyKeys gC2) = .ok [((3 : ℚ), "K1"), (2, "K2")] ∧
    ∃ res, fuzzyGet leven9 gC2 "q" "name" none 0 (pyKeys gC2) = .ok res ∧
      res.Perm [((3 : ℚ), "K1"), (2, "K2")] ∧
      res.Sorted pairRevLe ∧
      (∀ K, fuzzyGet leven9 gC2 "q" "name" (some K) 0 (pyKeys gC2) = .ok (res.take K)) ∧
      (∀ h2, res.head? = some h2 → ∀ x ∈ res, x.1 ≤ h2.1) :=
  ⟨by decide,
    c2_amended_sorted_list leven9 gC2 "q" "name" 0 (pyKeys gC2)
      [((3 : ℚ), "K1"), (2, "K2")] (by decide)⟩

/-- Claim C8: over the same candidates, `findClosestFromPoint(point, N=1)`
(no grid) returns exactly one pair, that pair belongs to
`findNearPoint(point, radius=+infinity)` — which keeps every geocoded
candidate — and it attains the minimal distance among them. -/
theorem c8_closest1_is_min_of_near_inf
    (pfloat : String → Option ℚ) (hav : Point → Point → ℚ) (g : GB)
    (p : Point) (keys : List String) (l : FuzzyRes)
    (hl : buildDistances pfloat hav g (some p) keys = .ok l) (hne : l ≠ []) :
    ∃ m, findClosestFromPoint pfloat hav g (some p) 1 keys = .ok [m] ∧
      findNearPoint pfloat hav g (some p) Radius.inf keys = .ok l ∧
      m ∈ l ∧ (∀ x ∈ l, m.1 ≤ x.1) := by
  have hperm : (pySortAsc l).Perm l := List.perm_insertionSort pairLe l
  have hsort : (pySortAsc l).Sorted pairLe := List.sorted_insertionSort pairLe l
  cases hres : pySortAsc l with
  | nil =>
    exfalso
    apply hne
    rw [hres] at hperm
    exact (List.Perm.eq_nil hperm.symm)
  | cons m t =>
    rw [hres] at hperm hsort
    refine ⟨m, ?_, ?_, ?_, ?_⟩
    · rw [findClosestFromPoint, hl]
      simp [Except.map, nsmallest, hres]
    · rw [findNearPoint, hl]
      simp [Except.map, leRadius]
    · exact hperm.subset (List.mem_cons_self m t)
    · intro x hx
      rcases List.mem_cons.mp (hperm.symm.subset hx) with h1 | h1
      · exact le_of_eq (congrArg Prod.fst h1.symm)
      · exact pairLe_fst_le ((List.sorted_cons.mp hsort).1 x h1)

/-- A two-record geocoded base for the C8 witness. -/
def gC8 : GB :=
  { things := [("A", [("lat", "1"), ("lng", "1")]), ("B", [("lat", "2"), ("lng", "1")])]
    fields := ["__id__", "__ln__", "lat", "lng"]
    cache_fuzzy := []
    bias_cache_fuzzy := [] }

theorem c8_closest1_is_min_of_near_inf_witness :
    buildDistances pfloat0 hav0 gC8 (some (0, 0)) (pyKeys gC8) =
      .ok [((1 : ℚ), "A"), (2, "B")] ∧
    ∃ m, findClosestFromPoint pfloat0 hav0 gC8 (some (0, 0)) 1 (pyKeys gC8) = .ok [m] ∧
      findNearPoint pfloat0 hav0 gC8 (some (0, 0)) Radius.inf (pyKeys gC8) =
        .ok [((1 : ℚ), "A"), (2, "B")] ∧
      m ∈ ([((1 : ℚ), "A"), (2, "B")] : FuzzyRes) ∧
      (∀ x ∈ ([((1 : ℚ), "A"), (2, "B")] : FuzzyRes), m.1 ≤ x.1) :=
  ⟨by decide,
    c8_closest1_is_min_of_near_inf pfloat0 hav0 gC8 (0, 0) (pyKeys gC8)
      [((1 : ℚ), "A"), (2, "B")] (by decide) (by decide)⟩

/-! ## The identity-marker invariant -/

theorem hasIdInv_iff (st : Store) :
    hasIdInv st = true ↔ ∀ p ∈ st, dlookup p.2 "__id__" = some p.1 := by
  simp [hasIdInv, List.all_eq_true]

theorem hasIdInv_dinsert {st : Store} {k : String} {r : Rec}
    (hinv : hasIdInv st = true) (hr : dlookup r "__id__" = some k) :
    hasIdInv (dinsert st k r) = true := by
  rw [hasIdInv_iff] at hinv ⊢
  intro p hp
  rcases mem_dinsert hp with h | h
  · rw [h]
    exact hr
  · exact hinv p h

theorem foldl_dinsert_id (ps : List (Option String × String))
    (hps : ∀ x ∈ ps, ¬ x.1 = some "__id__") :
    ∀ r0 : Rec,
      dlookup (ps.foldl
        (fun r hv => match hv.1 with | none => r | some h => dinsert r h hv.2) r0) "__id__" =
      dlookup r0 "__id__" := by
  induction ps with
  | nil => intro r0; rfl
  | cons hv t ih =>
    intro r0
    have hhd := hps hv (List.mem_cons_self hv t)
    have htl : ∀ x ∈ t, ¬ x.1 = some "__id__" :=
      fun x hx => hps x (List.mem_cons_of_mem hv hx)
    cases hh : hv.1 with
    | none => simp only [List.foldl_cons, hh]; exact ih htl r0
    | some h =>
      have hne : ¬ h = "__id__" := by
        intro he
        exact hhd (by rw [hh, he])
      simp only [List.foldl_cons, hh]
      rw [ih htl, dlookup_dinsert_ne _ _ _ _ hne]

theorem mkRecord_id (headers : List (Option String)) (k : String) (ln : ℕ)
    (row : List String) (hhd : (some "__id__") ∉ headers) :
    dlookup (mkRecord headers k ln row) "__id__" = some k := by
  unfold mkRecord
  rw [foldl_dinsert_id]
  · simp [dinsert, dlookup]
  · intro x hx he
    exact hhd (he ▸ (List.of_mem_zip hx).1)

theorem loadLines_id_inv (cfg : LoadConf) (verbose : Bool)
    (hhd : (some "__id__") ∉ cfg.headers) :
    ∀ (ents : List (ℕ × String)) (st : Store) (ws : List (String × Rec))
      (st2 : Store) (ws2 : List (String × Rec)),
      hasIdInv st = true →
      loadLines cfg verbose ents st ws = .ok (st2, ws2) →
      hasIdInv st2 = true := by
  intro ents
  induction ents with
  | nil =>
    intro st ws st2 ws2 hinv h
    simp only [loadLines] at h
    cases h
    exact hinv
  | cons e rest ih =>
    intro st ws st2 ws2 hinv h
    obtain ⟨ln, raw⟩ := e
    by_cases hskip : skipLine raw
    · rw [loadLines, if_pos hskip] at h
      exact ih st ws st2 ws2 hinv h
    · rw [loadLines, if_neg hskip] at h
      cases hk : keyer cfg (rowOf cfg raw) with
      | none =>
        simp only [hk] at h
        cases h
      | some key =>
        simp only [hk] at h
        exact ih _ _ st2 ws2
          (hasIdInv_dinsert hinv (mkRecord_id cfg.headers key ln (rowOf cfg raw) hhd)) h

theorem set_id_inv (g : GB) (key field value : String)
    (hinv : hasIdInv g.things = true) (hsome : (dlookup g.things key).isSome)
    (hne : ¬ field = "__id__") :
    hasIdInv (set g key field value).things = true := by
  obtain ⟨r, hr⟩ := Option.isSome_iff_exists.mp hsome
  have hid : dlookup r "__id__" = some key :=
    (hasIdInv_iff g.things).mp hinv (key, r) (dlookup_mem hr)
  show hasIdInv (dinsert g.things key (dinsert ((dlookup g.things key).getD []) field value)) = true
  rw [hr]
  exact hasIdInv_dinsert hinv (by rw [dlookup_dinsert_ne _ _ _ _ hne]; exact hid)

theorem setWithDict_id_inv (g : GB) (key : String) (d : List (String × String))
    (hinv : hasIdInv g.things = true) (hsome : (dlookup g.things key).isSome)
    (hd : ∀ p ∈ d, ¬ p.1 = "__id__") :
    hasIdInv (setWithDict g key d).things = true := by
  induction d generalizing g with
  | nil => exact hinv
  | cons p t ih =>
    have h1 : hasIdInv (set g key p.1 p.2).things = true :=
      set_id_inv g key p.1 p.2 hinv hsome (hd p (List.mem_cons_self p t))
    have h2 : (dlookup (set g key p.1 p.2).things key).isSome := by
      show (dlookup (dinsert g.things key _) key).isSome
      rw [dlookup_dinsert_self]
      rfl
    exact ih (set g key p.1 p.2) h1 h2 (fun x hx => hd x (List.mem_cons_of_mem p hx))

/-- An empty base (the `feed` mode of the constructor). -/
def gFeed : GB :=
  { things := []
    fields := []
    cache_fuzzy := []
    bias_cache_fuzzy := [] }

/-- Claim C3 counterexample: `set` on a key absent from the store creates
the record as `{}` and then assigns the field, never writing `'__id__'`:
the stated invariant is not preserved by `set`. -/
theorem c3_id_invariant_counterexample :
    hasIdInv gFeed.things = true ∧
    hasIdInv (set gFeed "frnic" "name" "Nice").things = false := by
  exact ⟨by decide, by decide⟩

/-- Claim C3 as amended: every record inserted by file loading carries
`'__id__'` equal to its own key (provided `'__id__'` is not itself a
configured header), and the invariant is preserved by `delete` and by
`set`/`setWithDict` on a key already present when the written fields are
not `'__id__'` — but `set` on an absent key creates a record without
`'__id__'` (see the counterexample). -/
theorem c3_amended_id_invariant :
    (∀ (cfg : LoadConf) (verbose : Bool) (lines : List String)
       (st : Store) (ws : List (String × Rec)),
       (some "__id__") ∉ cfg.headers →
       loadFile cfg verbose lines = .ok (st, ws) →
       hasIdInv st = true) ∧
    (∀ (g : GB) (key : String) (g2 : GB),
       hasIdInv g.things = true → delete g key = .ok g2 →
       hasIdInv g2.things = true) ∧
    (∀ (g : GB) (key field value : String),
       hasIdInv g.things = true → (dlookup g.things key).isSome →
       ¬ field = "__id__" →
       hasIdInv (set g key field value).things = true) ∧
    (∀ (g : GB) (key : String) (d : List (String × String)),
       hasIdInv g.things = true → (dlookup g.things key).isSome →
       (∀ p ∈ d, ¬ p.1 = "__id__") →
       hasIdInv (setWithDict g key d).things = true) := by
  refine ⟨?_, ?_, set_id_inv, setWithDict_id_inv⟩
  · intro cfg verbose lines st ws hhd hload
    exact loadLines_id_inv cfg verbose hhd (List.enumFrom 1 lines) [] [] st ws rfl hload
  · intro g key g2 hinv hdel
    cases hk : dlookup g.things key with
    | none => rw [delete, hk] at hdel; cases hdel
    | some r =>
      rw [delete, hk] at hdel
      cases hdel
      rw [hasIdInv_iff] at hinv ⊢
      exact fun p hp => hinv p (mem_dremove hp)

/-! ## Loading: success, last write wins, warnings -/

theorem loadLines_isOk (cfg : LoadConf) (verbose : Bool) :
    ∀ (ents : List (ℕ × String)) (st : Store) (ws : List (String × Rec)),
      allRowsKeyed cfg ents = true →
      ∃ st2 ws2, loadLines cfg verbose ents st ws = .ok (st2, ws2) := by
  intro ents
  induction ents with
  | nil =>
    intro st ws _
    exact ⟨st, ws, rfl⟩
  | cons e rest ih =>
    intro st ws hall
    obtain ⟨ln, raw⟩ := e
    simp only [allRowsKeyed, List.all_cons, Bool.and_eq_true, Bool.or_eq_true] at hall
    by_cases hskip : skipLine raw
    · rw [loadLines, if_pos hskip]
      exact ih st ws hall.2
    · rcases hall.1 with h | h
      · exact absurd h hskip
      · obtain ⟨key, hk⟩ := Option.isSome_iff_exists.mp h
        rw [loadLines, if_neg hskip]
        simp only [hk]
        exact ih _ _ hall.2

theorem loadLines_lookup (cfg : LoadConf) (verbose : Bool) :
    ∀ (ents : List (ℕ × String)) (st : Store) (ws : List (String × Rec))
      (st2 : Store) (ws2 : List (String × Rec)),
      loadLines cfg verbose ents st ws = .ok (st2, ws2) →
      ∀ k, dlookup st2 k =
        ((ents.filterMap (lineRecord cfg k)).getLast?).or (dlookup st k) := by
  intro ents
  induction ents with
  | nil =>
    intro st ws st2 ws2 h k
    simp only [loadLines] at h
    cases h
    simp
  | cons e rest ih =>
    intro st ws st2 ws2 h k
    obtain ⟨ln, raw⟩ := e
    by_cases hskip : skipLine raw
    · rw [loadLines, if_pos hskip] at h
      have hlr : lineRecord cfg k (ln, raw) = none := by
        simp [lineRecord, hskip]
      simp only [List.filterMap_cons, hlr]
      exact ih st ws st2 ws2 h k
    · rw [loadLines, if_neg hskip] at h
      cases hk : keyer cfg (rowOf cfg raw) with
      | none =>
        simp only [hk] at h
        cases h
      | some key =>
        simp only [hk] at h
        have hrec := ih _ _ st2 ws2 h k
        by_cases hkey : key = k
        · subst hkey
          have hlr : lineRecord cfg key (ln, raw) =
              some (mkRecord cfg.headers key ln (rowOf cfg raw)) := by
            simp [lineRecord, hskip, hk]
          simp only [List.filterMap_cons, hlr]
          rw [hrec, dlookup_dinsert_self]
          have hg : (mkRecord cfg.headers key ln (rowOf cfg raw) ::
              rest.filterMap (lineRecord cfg key)).getLast? =
              (rest.filterMap (lineRecord cfg key)).getLast?.or
                (some (mkRecord cfg.headers key ln (rowOf cfg raw))) := by
            rw [show (mkRecord cfg.headers key ln (rowOf cfg raw) ::
                rest.filterMap (lineRecord cfg key)) =
                [mkRecord cfg.headers key ln (rowOf cfg raw)] ++
                rest.filterMap (lineRecord cfg key) from rfl]
            rw [List.getLast?_append]
            rfl
          rw [hg, Option.or_assoc]
          rfl
        · have hlr : lineRecord cfg k (ln, raw) = none := by
            simp [lineRecord, hskip, hk, hkey]
          simp only [List.filterMap_cons, hlr]
          rw [hrec, dlookup_dinsert_ne _ _ _ _ hkey]

theorem loadLines_warns_false (cfg : LoadConf) :
    ∀ (ents : List (ℕ × String)) (st : Store) (ws : List (String × Rec))
      (st2 : Store) (ws2 : List (String × Rec)),
      loadLines cfg false ents st ws = .ok (st2, ws2) → ws2 = ws := by
  intro ents
  induction ents with
  | nil =>
    intro st ws st2 ws2 h
    simp only [loadLines] at h
    cases h
    rfl
  | cons e rest ih =>
    intro st ws st2 ws2 h
    obtain ⟨ln, raw⟩ := e
    by_cases hskip : skipLine raw
    · rw [loadLines, if_pos hskip] at h
      exact ih st ws st2 ws2 h
    · rw [loadLines, if_neg hskip] at h
      cases hk : keyer cfg (rowOf cfg raw) with
      | none =>
        simp only [hk] at h
        cases h
      | some key =>
        simp only [hk] at h
        cases hd : dlookup st key with
        | none =>
          simp only [hd] at h
          exact ih _ _ st2 ws2 h
        | some old =>
          simp only [hd, Bool.false_eq_true, if_false] at h
          exact ih _ _ st2 ws2 h

theorem loadLines_warn_nonempty (cfg : LoadConf) :
    ∀ (ents : List (ℕ × String)) (st : Store) (ws : List (String × Rec))
      (st2 : Store) (ws2 : List (String × Rec)),
      loadLines cfg true ents st ws = .ok (st2, ws2) →
      (ws ≠ [] ∨ ¬ (keptKeys cfg ents).Nodup ∨
        ∃ k ∈ keptKeys cfg ents, (dlookup st k).isSome) →
      ws2 ≠ [] := by
  intro ents
  induction ents with
  | nil =>
    intro st ws st2 ws2 h hcond
    simp only [loadLines] at h
    cases h
    rcases hcond with hw | hnd | ⟨k, hkmem, _⟩
    · exact hw
    · exact absurd (by simp [keptKeys] : (keptKeys cfg ([] : List (ℕ × String))).Nodup) hnd
    · simp [keptKeys] at hkmem
  | cons e rest ih =>
    intro st ws st2 ws2 h hcond
    obtain ⟨ln, raw⟩ := e
    by_cases hskip : skipLine raw
    · rw [loadLines, if_pos hskip] at h
      have hkk : keptKeys cfg ((ln, raw) :: rest) = keptKeys cfg rest := by
        simp [keptKeys, hskip]
      rw [hkk] at hcond
      exact ih st ws st2 ws2 h hcond
    · rw [loadLines, if_neg hskip] at h
      cases hk : keyer cfg (rowOf cfg raw) with
      | none =>
        simp only [hk] at h
        cases h
      | some key =>
        have hkk : keptKeys cfg ((ln, raw) :: rest) = key :: keptKeys cfg rest := by
          simp [keptKeys, hskip, hk]
        simp only [hk] at h
        rw [hkk] at hcond
        cases hd : dlookup st key with
        | some old =>
          simp only [hd, if_pos rfl] at h
          exact ih _ _ st2 ws2 h (Or.inl (by simp))
        | none =>
          simp only [hd] at h
          apply ih _ _ st2 ws2 h
          rcases hcond with hw | hnd | ⟨k, hkmem, hks⟩
          · exact Or.inl hw
          · rw [List.nodup_cons] at hnd
            by_cases hmem : key ∈ keptKeys cfg rest
            · refine Or.inr (Or.inr ⟨key, hmem, ?_⟩)
              rw [dlookup_dinsert_self]
              rfl
            · refine Or.inr (Or.inl fun hn => hnd ⟨hmem, hn⟩)
          · rcases List.mem_cons.mp hkmem with he | he
            · rw [he, hd] at hks
              cases hks
            · refine Or.inr (Or.inr ⟨k, he, ?_⟩)
              rw [dlookup_dinsert]
              by_cases hkeq : key = k
              · simp [hkeq]
              · rw [if_neg hkeq]
                exact hks

/-- Claim C7: loading a source whose rows duplicate a key does not fail
(it succeeds whenever every kept row yields a key): for every key the
final store holds exactly the record of the last row producing that key
(last write wins); no warning is recorded when not verbose; and when
verbose, a duplicated key makes the warning list nonempty (the duplicate
is reported, not raised). -/
theorem c7_duplicate_load_last_write_wins
    (cfg : LoadConf) (verbose : Bool) (lines : List String)
    (hkeyed : allRowsKeyed cfg (List.enumFrom 1 lines) = true) :
    ∃ st ws, loadFile cfg verbose lines = .ok (st, ws) ∧
      (∀ k, dlookup st k = specLastRecord cfg lines k) ∧
      (verbose = false → ws = []) ∧
      (verbose = true → ¬ (keptKeys cfg (List.enumFrom 1 lines)).Nodup → ws ≠ []) := by
  obtain ⟨st, ws, hok⟩ := loadLines_isOk cfg verbose (List.enumFrom 1 lines) [] [] hkeyed
  refine ⟨st, ws, hok, ?_, ?_, ?_⟩
  · intro k
    have h := loadLines_lookup cfg verbose (List.enumFrom 1 lines) [] [] st ws hok k
    rw [h]
    simp [specLastRecord, dlookup]
  · intro hv
    subst hv
    exact loadLines_warns_false cfg (List.enumFrom 1 lines) [] [] st ws hok
  · intro hv hdup
    subst hv
    exact loadLines_warn_nonempty cfg (List.enumFrom 1 lines) [] [] st ws hok
      (Or.inr (Or.inl hdup))

/-- The loading configuration used by the loading witnesses. -/
def cfgW : LoadConf :=
  { headers := [some "code", some "name"]
    key_col := KeyCol.single "code"
    delimiter := ',' }

/-- The store two well-formed lines produce under `cfgW`. -/
def stW : Store :=
  [("A", [("__id__", "A"), ("__ln__", "1"), ("code", "A"), ("name", "Alpha")]),
   ("B", [("__id__", "B"), ("__ln__", "2"), ("code", "B"), ("name", "Beta")])]

/-- An invariant-satisfying one-record base for the mutation witnesses. -/
def gW : GB :=
  { things := [("A", [("__id__", "A"), ("name", "Alpha")])]
    fields := ["__id__", "name"]
    cache_fuzzy := []
    bias_cache_fuzzy := [] }

theorem c3_amended_id_invariant_witness :
    loadFile cfgW true ["A,Alpha", "B,Beta"] = .ok (stW, []) ∧
    hasIdInv stW = true ∧
    hasIdInv ({ gW with things := [] } : GB).things = true ∧
    hasIdInv (set gW "A" "name" "Nice").things = true ∧
    hasIdInv (setWithDict gW "A" [("name", "Beta"), ("extra", "1")]).things = true := by
  refine ⟨by decide, ?_, ?_, ?_, ?_⟩
  · exact (c3_amended_id_invariant.1) cfgW true ["A,Alpha", "B,Beta"] stW []
      (by decide) (by decide)
  · exact (c3_amended_id_invariant.2.1) gW "A" { gW with things := [] }
      (by decide) (by decide)
  · exact (c3_amended_id_invariant.2.2.1) gW "A" "name" "Nice"
      (by decide) (by decide) (by decide)
  · exact (c3_amended_id_invariant.2.2.2) gW "A" [("name", "Beta"), ("extra", "1")]
      (by decide) (by decide) (by decide)

/-- Lines with a duplicated key ("A" twice) and a comment line. -/
def linesW : List String := ["A,Alpha", "#comment", "A,Alpha2", "B,Beta"]

theorem c7_duplicate_load_last_write_wins_witness :
    allRowsKeyed cfgW (List.enumFrom 1 linesW) = true ∧
    ∃ st ws, loadFile cfgW true linesW = .ok (st, ws) ∧
      (∀ k, dlookup st k = specLastRecord cfgW linesW k) ∧
      (true = false → ws = []) ∧
      (true = true → ¬ (keptKeys cfgW (List.enumFrom 1 linesW)).Nodup → ws ≠ []) :=
  ⟨by decide, c7_duplicate_load_last_write_wins cfgW true linesW (by decide)⟩

end GeoBases
